import Mathlib

/-!
Verification of the DNA motif analyzer core (`src/main.py`): sequence
loading and validation (`read_sequence_file`), overlapping motif search
(`find_motif_positions`), and fixed-width bin aggregation
(`segment_counts`).  Strings are modelled as `List Char`; Python's
per-character `str.upper` is modelled for ASCII; `str.strip()` and
`str.splitlines()` are modelled with Python's full whitespace and
line-boundary character sets.
-/

namespace DnaMotif

/-- The whitespace characters removed by Python's `str.strip()` (the
characters for which `str.isspace()` is true). -/
def pySpaceChars : List Char :=
  [' ', '\t', '\n', '\r', '\x0b', '\x0c',
   '\x1c', '\x1d', '\x1e', '\x1f', '\x85', '\xa0',
   '\u1680', '\u2000', '\u2001', '\u2002', '\u2003', '\u2004', '\u2005',
   '\u2006', '\u2007', '\u2008', '\u2009', '\u200a',
   '\u2028', '\u2029', '\u202f', '\u205f', '\u3000']

/-- Is `c` removed by Python's `str.strip()`? -/
def pySpace (c : Char) : Bool := decide (c ∈ pySpaceChars)

/-- The ASCII lowercase letters. -/
def lowercaseLetters : List Char :=
  ['a', 'b', 'c', 'd', 'e', 'f', 'g', 'h', 'i', 'j', 'k', 'l', 'm',
   'n', 'o', 'p', 'q', 'r', 's', 't', 'u', 'v', 'w', 'x', 'y', 'z']

/-- Python's `str.upper()`, per character, for ASCII letters (a lowercase
letter moves down 32 code points; everything else is unchanged). -/
def pyUpper (c : Char) : Char :=
  if c ∈ lowercaseLetters then Char.ofNat (c.toNat - 32) else c

/-- Python's `str.strip()`: drop whitespace from both ends. -/
def pyStrip (s : List Char) : List Char :=
  ((s.dropWhile pySpace).reverse.dropWhile pySpace).reverse

/-- The line boundaries of Python's `str.splitlines()`. -/
def lineBreakChars : List Char :=
  ['\n', '\r', '\x0b', '\x0c', '\x1c', '\x1d', '\x1e', '\x85',
   '\u2028', '\u2029']

/-- Is `c` a `str.splitlines()` line boundary? -/
def isLineBreak (c : Char) : Bool := decide (c ∈ lineBreakChars)

/-- Python's `str.splitlines()`.  The two-character boundary `"\r\n"` is
modelled as two consecutive one-character boundaries; the extra empty line
this produces is dropped by the loader's non-empty-line filter, so every
function of this development computes the same value either way. -/
def splitLines : List Char → List (List Char)
  | [] => [[]]
  | c :: cs =>
    if isLineBreak c then [] :: splitLines cs
    else
      match splitLines cs with
      | [] => [[c]]
      | l :: ls => (c :: l) :: ls

/-- `VALID_DNA = set("ACGTN")` from `src/main.py`. -/
def VALID_DNA : List Char := ['A', 'C', 'G', 'T', 'N']

/-- Insert a character into a `≤`-sorted list of characters. -/
def insertSorted (c : Char) : List Char → List Char
  | [] => [c]
  | d :: ds => if c ≤ d then c :: d :: ds else d :: insertSorted c ds

/-- Insertion sort on characters (models Python's `sorted` on a character set). -/
def sortChars (xs : List Char) : List Char := xs.foldr insertSorted []

/-- `sorted(set(s) - VALID_DNA)`: the sorted, duplicate-free list of
characters of `s` outside the DNA alphabet. -/
def badChars (s : List Char) : List Char :=
  sortChars ((s.filter (fun c => decide (c ∉ VALID_DNA))).dedup)

/-- The exceptions raised by the core of `src/main.py` (each `ValueError`,
with the payload it carries beyond its fixed message text). -/
inductive PyError where
  /-- "Plik jest pusty." -/
  | emptyFile : PyError
  /-- "Niepoprawne znaki w sekwencji: {bad}" — carries the sorted set of
  offending characters. -/
  | invalidSeqChars (bad : List Char) : PyError
  /-- "Motyw nie może być pusty." -/
  | emptyMotif : PyError
  /-- "Motyw może zawierać tylko A,C,G,T,N." — a fixed message, carrying
  no characters. -/
  | invalidMotifChars : PyError
  /-- "Bin size musi być > 0." -/
  | invalidBinSize : PyError
  /-- pandas `ValueError` raised by `pd.DataFrame` when the two column
  arrays have different lengths. -/
  | frameLengthMismatch : PyError
  deriving DecidableEq

instance {ε α : Type} [DecidableEq ε] [DecidableEq α] :
    DecidableEq (Except ε α) := fun x y =>
  match x, y with
  | .ok a, .ok b =>
    if h : a = b then .isTrue (by rw [h]) else .isFalse (by simp [h])
  | .error a, .error b =>
    if h : a = b then .isTrue (by rw [h]) else .isFalse (by simp [h])
  | .ok _, .error _ => .isFalse (by simp)
  | .error _, .ok _ => .isFalse (by simp)

/-- `[ln.strip() for ln in lines if ln.strip()]`. -/
def stripLines (ls : List (List Char)) : List (List Char) :=
  (ls.map pyStrip).filter (fun l => decide (l ≠ []))

/-- The `header` computed by `read_sequence_file` (`""` when the first line
does not start with `>`). -/
def headerOf (raw : List Char) : List Char :=
  let lines := splitLines (pyStrip raw)
  if lines.headI.head? = some '>' then pyStrip lines.headI else []

/-- The `seq_lines` list computed by `read_sequence_file`. -/
def seqLines (raw : List Char) : List (List Char) :=
  let lines := splitLines (pyStrip raw)
  if lines.headI.head? = some '>' then stripLines lines.tail else stripLines lines

/-- `seq = "".join(seq_lines).upper().replace(" ", "")`. -/
def candidateSeq (raw : List Char) : List Char :=
  (((seqLines raw).flatten).map pyUpper).filter (fun c => decide (c ≠ ' '))

/-- `read_sequence_file` from `src/main.py`, on the raw file text (the
path/existence checks belong to the I/O layer and are not modelled). -/
def read_sequence_file (raw : List Char) :
    Except PyError (List Char × List Char) :=
  if pyStrip raw = [] then .error .emptyFile
  else
    let seq := candidateSeq raw
    let bad := badChars seq
    if bad ≠ [] then .error (.invalidSeqChars bad)
    else .ok (headerOf raw, seq)

/-- `motif.upper().strip()`: the motif normalization performed by
`find_motif_positions`. -/
def normMotif (motif : List Char) : List Char := pyStrip (motif.map pyUpper)

/-- Does `m` occur in `seq` starting at offset `i`
(`seq[i : i+len(m)] == m`)? -/
def matchAt (seq m : List Char) (i : Nat) : Bool :=
  decide ((seq.drop i).take m.length = m)

/-- `find_motif_positions` from `src/main.py`.  The regex
`(?=(motif))` scan reports every offset `i` in `[0, len(seq)]` whose
lookahead succeeds, i.e. where `seq[i : i+len(motif)] == motif`. -/
def find_motif_positions (seq motif0 : List Char) : Except PyError (List Nat) :=
  let motif := normMotif motif0
  if motif = [] then .error .emptyMotif
  else if motif.filter (fun c => decide (c ∉ VALID_DNA)) ≠ [] then
    .error .invalidMotifChars
  else .ok ((List.range (seq.length + 1)).filter (matchAt seq motif))

/-- One row of the `bins` DataFrame: columns `bin_index` and `count`. -/
structure BinRow where
  bin_index : Nat
  count : Nat
  deriving DecidableEq

/-- `np.bincount(bins, minlength)`: entry `i` counts the occurrences of `i`;
the length is `max minlength (max(bins) + 1)` (it is applied to a non-empty
`bins` in `segment_counts`). -/
def bincount (bins : List Nat) (minlength : Nat) : List Nat :=
  let L := max minlength (bins.foldr max 0 + 1)
  (List.range L).map (fun i => bins.count i)

/-- `segment_counts` from `src/main.py`.  `int(np.ceil(seq_len / bin_size))`
is modelled as exact ceiling division on naturals (`np.ceil` on the float
quotient is exact throughout the int ranges of interest).  `pd.DataFrame`
pairs `np.arange(n_bins)` with `counts` when their lengths agree and raises
a `ValueError` otherwise. -/
def segment_counts (seq_len : Nat) (positions0 : List Nat) (bin_size : Int) :
    Except PyError (List BinRow) :=
  if bin_size ≤ 0 then .error .invalidBinSize
  else
    let b := bin_size.toNat
    let n_bins := (seq_len + b - 1) / b
    let counts :=
      if positions0.length = 0 then List.replicate n_bins 0
      else bincount (positions0.map (fun p => p / b)) n_bins
    if counts.length = n_bins then
      .ok (((List.range n_bins).zip counts).map (fun p => ⟨p.1, p.2⟩))
    else .error .frameLengthMismatch

/-- The column names of the exported `bins` DataFrame
(`src/main.py`, lines 75–78). -/
def bins_columns : List String := ["bin_index", "count"]

/-- The column names of the exported `hits` DataFrame
(`src/main.py`, lines 164–167). -/
def hits_columns : List String := ["motif", "start_1"]

/-! ## Basic lemmas about the character-level helpers -/

theorem dropWhile_eq_self_of_head {p : Char → Bool} {l : List Char}
    (h : ∀ c, l.head? = some c → p c = false) : l.dropWhile p = l := by
  cases l with
  | nil => rfl
  | cons c cs =>
    rw [List.dropWhile_cons]
    simp [h c rfl]

theorem pyStrip_eq_self {l : List Char} (h : ∀ c ∈ l, pySpace c = false) :
    pyStrip l = l := by
  have h1 : l.dropWhile pySpace = l :=
    dropWhile_eq_self_of_head fun c hc => h c (List.mem_of_mem_head? hc)
  have h2 : l.reverse.dropWhile pySpace = l.reverse :=
    dropWhile_eq_self_of_head fun c hc =>
      h c (List.mem_reverse.1 (List.mem_of_mem_head? hc))
  simp [pyStrip, h1, h2]

theorem pyUpper_valid {c : Char} (h : c ∈ VALID_DNA) : pyUpper c = c := by
  fin_cases h <;> decide

theorem pySpace_valid {c : Char} (h : c ∈ VALID_DNA) : pySpace c = false := by
  fin_cases h <;> decide

theorem normMotif_eq_self {motif : List Char}
    (h : ∀ c ∈ motif, c ∈ VALID_DNA) : normMotif motif = motif := by
  unfold normMotif
  rw [show motif.map pyUpper = motif from by
    rw [List.map_congr_left fun c hc => pyUpper_valid (h c hc), List.map_id']]
  exact pyStrip_eq_self fun c hc => pySpace_valid (h c hc)

theorem take_drop_eq_imp {seq m : List Char} {i : Nat} (hm : m ≠ [])
    (h : (seq.drop i).take m.length = m) : i + m.length ≤ seq.length := by
  have hlen := congrArg List.length h
  have hmpos : 0 < m.length := List.length_pos.2 hm
  simp only [List.length_take, List.length_drop] at hlen
  omega

/-! ## C1: overlapping motif search -/

/-- C1: for every sequence string and every valid non-empty motif,
`find_motif_positions` returns exactly the list of start offsets `i` with
`i + len(motif) ≤ len(sequence)` and `sequence[i : i+len(motif)] == motif`,
in strictly ascending order with no duplicates (overlapping occurrences all
counted), and when the motif is longer than the sequence the result is the
empty list, not an error. -/
theorem find_overlapping_correct (seq motif : List Char)
    (hne : motif ≠ []) (hval : ∀ c ∈ motif, c ∈ VALID_DNA) :
    ∃ hits, find_motif_positions seq motif = .ok hits ∧
      (∀ i, i ∈ hits ↔ i + motif.length ≤ seq.length ∧
          (seq.drop i).take motif.length = motif) ∧
      hits.Pairwise (· < ·) ∧
      (seq.length < motif.length → hits = []) := by
  have hfil : motif.filter (fun c => decide (c ∉ VALID_DNA)) = [] :=
    List.filter_eq_nil_iff.2 fun c hc => by simp [hval c hc]
  have hres : find_motif_positions seq motif =
      .ok ((List.range (seq.length + 1)).filter (matchAt seq motif)) := by
    unfold find_motif_positions
    rw [normMotif_eq_self hval, if_neg hne, hfil]
    simp
  refine ⟨_, hres, ?_, ?_, ?_⟩
  · intro i
    rw [List.mem_filter, List.mem_range]
    unfold matchAt
    rw [decide_eq_true_iff]
    constructor
    · rintro ⟨_, hmatch⟩
      exact ⟨take_drop_eq_imp hne hmatch, hmatch⟩
    · rintro ⟨hle, hmatch⟩
      exact ⟨by omega, hmatch⟩
  · exact List.Pairwise.sublist (List.filter_sublist _) (List.pairwise_lt_range _)
  · intro hlt
    apply List.filter_eq_nil_iff.2
    intro i _
    unfold matchAt
    rw [Bool.not_eq_true, decide_eq_false_iff_not]
    intro hmatch
    have := take_drop_eq_imp hne hmatch
    omega

/-- Witness for C1 at the spec's own example: motif `"AA"` in `"AAAA"`. -/
theorem find_overlapping_correct_witness :
    ∃ hits, find_motif_positions ['A','A','A','A'] ['A','A'] = .ok hits ∧
      (∀ i, i ∈ hits ↔ i + (['A','A'] : List Char).length ≤
          (['A','A','A','A'] : List Char).length ∧
          ((['A','A','A','A'] : List Char).drop i).take
            (['A','A'] : List Char).length = ['A','A']) ∧
      hits.Pairwise (· < ·) ∧
      ((['A','A','A','A'] : List Char).length <
        (['A','A'] : List Char).length → hits = []) :=
  find_overlapping_correct ['A','A','A','A'] ['A','A'] (by decide) (by decide)

/-! ## Arithmetic and counting lemmas for the bin aggregation -/

theorem sum_map_add (l : List Nat) (f g : Nat → Nat) :
    (l.map (fun a => f a + g a)).sum = (l.map f).sum + (l.map g).sum := by
  induction l with
  | nil => rfl
  | cons x xs ih => simp [ih]; omega

theorem sum_map_indicator (x : Nat) :
    ∀ L : Nat, x < L →
      ((List.range L).map (fun i => if i = x then 1 else 0)).sum = 1 := by
  intro L
  induction L with
  | zero => omega
  | succ L ih =>
    intro hx
    rw [List.range_succ, List.map_append, List.sum_append]
    by_cases h : x < L
    · have hLx : ¬ L = x := by omega
      simp [ih h, hLx]
    · have hxL : x = L := by omega
      subst hxL
      have hzero : ((List.range x).map (fun i => if i = x then 1 else 0)).sum = 0 :=
        List.sum_eq_zero fun y hy => by
          rcases List.mem_map.1 hy with ⟨i, hi, rfl⟩
          simp [show ¬ i = x from by have := List.mem_range.1 hi; omega]
      simp [hzero]

theorem sum_range_count (L : Nat) :
    ∀ xs : List Nat, (∀ x ∈ xs, x < L) →
      ((List.range L).map (fun i => xs.count i)).sum = xs.length := by
  intro xs
  induction xs with
  | nil => intro _; simp
  | cons x xs ih =>
    intro h
    have hx : x < L := h x (List.mem_cons_self x xs)
    have hcount : ∀ i : Nat,
        (x :: xs).count i = xs.count i + if i = x then 1 else 0 := by
      intro i
      rw [List.count_cons]
      simp only [beq_iff_eq]
      exact congrArg (xs.count i + ·) (if_congr eq_comm rfl rfl)
    rw [List.map_congr_left fun i _ => hcount i, sum_map_add,
      ih fun y hy => h y (List.mem_cons_of_mem _ hy), sum_map_indicator x L hx]
    simp

theorem div_lt_ceil {p L b : Nat} (hb : 0 < b) (hp : p < L) :
    p / b < (L + b - 1) / b := by
  have h1 : (L + b - 1) / b = (L - 1) / b + 1 := by
    rw [show L + b - 1 = (L - 1) + b from by omega, Nat.add_div_right _ hb]
  have h2 : p / b ≤ (L - 1) / b := Nat.div_le_div_right (by omega)
  omega

theorem ceil_pos {L b : Nat} (hb : 0 < b) (hL : 1 ≤ L) :
    0 < (L + b - 1) / b :=
  Nat.lt_of_lt_of_le (Nat.zero_lt_of_lt (div_lt_ceil hb hL))
    (Nat.div_le_div_right (by omega))

theorem foldr_max_lt {k : Nat} {l : List Nat} (hk : 0 < k)
    (h : ∀ x ∈ l, x < k) : l.foldr max 0 < k := by
  induction l with
  | nil => simpa
  | cons x xs ih =>
    simp only [List.foldr_cons]
    exact Nat.max_lt.2 ⟨h x (List.mem_cons_self x xs),
      ih fun y hy => h y (List.mem_cons_of_mem _ hy)⟩

theorem zip_map_mk (g : Nat → Nat) :
    ∀ l : List Nat, ((l.zip (l.map g)).map (fun p => BinRow.mk p.1 p.2)) =
      l.map (fun i => BinRow.mk i (g i)) := by
  intro l
  induction l with
  | nil => rfl
  | cons i l ih => simp [ih]

/-- Closed form of `segment_counts` on in-range hit offsets: one row for each
bin index `i < ceil(seq_len / bin_size)`, whose count is the number of hits
`p` with `p / bin_size = i`. -/
theorem segment_counts_eq (seq_len : Nat) (positions0 : List Nat) (bin_size : Int)
    (hb : 0 < bin_size) (hpos : ∀ p ∈ positions0, p < seq_len) :
    segment_counts seq_len positions0 bin_size =
      .ok ((List.range ((seq_len + bin_size.toNat - 1) / bin_size.toNat)).map
        (fun i => ⟨i, (positions0.map (fun p => p / bin_size.toNat)).count i⟩)) := by
  have hbn : 0 < bin_size.toNat := by omega
  simp only [segment_counts, if_neg (show ¬ bin_size ≤ 0 by omega)]
  set b := bin_size.toNat with hbdef
  set n := (seq_len + b - 1) / b with hndef
  cases positions0 with
  | nil =>
    have hrep : List.replicate n (0 : Nat) = (List.range n).map (fun _ => 0) := by
      rw [List.map_const', List.length_range]
    simp only [List.length_nil, List.map_nil, if_true, List.length_replicate]
    rw [hrep, zip_map_mk]
    refine congrArg Except.ok (List.map_congr_left fun i _ => ?_)
    simp [List.count_nil]
  | cons p ps =>
    have hL : 1 ≤ seq_len :=
      Nat.one_le_iff_ne_zero.2 fun h => by
        have := hpos p (List.mem_cons_self p ps); omega
    have hn : 0 < n := ceil_pos hbn hL
    have hbins : ∀ x ∈ (p :: ps).map (fun q => q / b), x < n := by
      intro x hx
      rcases List.mem_map.1 hx with ⟨q, hq, rfl⟩
      exact div_lt_ceil hbn (hpos q hq)
    have hcounts : (if ((p :: ps) : List Nat).length = 0 then
        List.replicate n (0 : Nat)
        else bincount ((p :: ps).map (fun q => q / b)) n) =
        (List.range n).map (fun i => ((p :: ps).map (fun q => q / b)).count i) := by
      rw [if_neg (by simp)]
      simp only [bincount]
      rw [Nat.max_eq_left (foldr_max_lt hn hbins)]
    rw [hcounts]
    rw [if_pos (by rw [List.length_map, List.length_range])]
    rw [zip_map_mk]

/-! ## C2: conservation of hit counts over bins -/

/-- C2: for every `sequence_length ≥ 1`, positive `bin_size` and hit list
with offsets in `[0, sequence_length)`, the bin counts returned by
`segment_counts` sum to the number of hits exactly, and no count is
negative. -/
theorem segment_counts_conservation (seq_len : Nat) (positions0 : List Nat)
    (bin_size : Int) (hL : 1 ≤ seq_len) (hb : 0 < bin_size)
    (hpos : ∀ p ∈ positions0, p < seq_len) :
    ∃ rows, segment_counts seq_len positions0 bin_size = .ok rows ∧
      (rows.map BinRow.count).sum = positions0.length ∧
      ∀ r ∈ rows, 0 ≤ r.count := by
  have hbn : 0 < bin_size.toNat := by omega
  refine ⟨_, segment_counts_eq seq_len positions0 bin_size hb hpos, ?_,
    fun r _ => Nat.zero_le _⟩
  rw [List.map_map]
  have hcomp : (BinRow.count ∘ fun i =>
      BinRow.mk i ((positions0.map (fun p => p / bin_size.toNat)).count i)) =
      fun i => (positions0.map (fun p => p / bin_size.toNat)).count i := rfl
  rw [hcomp, sum_range_count _ _ ?_, List.length_map]
  intro x hx
  rcases List.mem_map.1 hx with ⟨q, hq, rfl⟩
  exact div_lt_ceil hbn (hpos q hq)

/-- Witness for C2: `seq_len = 10`, hits `[0, 3, 9]`, `bin_size = 4`. -/
theorem segment_counts_conservation_witness :
    ∃ rows, segment_counts 10 [0, 3, 9] 4 = .ok rows ∧
      (rows.map BinRow.count).sum = ([0, 3, 9] : List Nat).length ∧
      ∀ r ∈ rows, 0 ≤ r.count :=
  segment_counts_conservation 10 [0, 3, 9] 4 (by decide) (by decide)
    (by decide)

/-! ## C3: dense bins partitioning the sequence -/

/-- C3: for every `sequence_length ≥ 1`, positive `bin_size` and hit list
with offsets in `[0, sequence_length)`, `segment_counts` returns exactly
`ceil(sequence_length / bin_size)` bins whose 0-based indices are
`0, 1, 2, …` in order (dense histogram, zero-count bins included), and the
bins `[i*bin_size, min((i+1)*bin_size, sequence_length))` disjointly and
fully cover `[0, sequence_length)`. -/
theorem segment_counts_dense_partition (seq_len : Nat) (positions0 : List Nat)
    (bin_size : Int) (hL : 1 ≤ seq_len) (hb : 0 < bin_size)
    (hpos : ∀ p ∈ positions0, p < seq_len) :
    ∃ rows, segment_counts seq_len positions0 bin_size = .ok rows ∧
      rows.length = (seq_len + bin_size.toNat - 1) / bin_size.toNat ∧
      rows.map BinRow.bin_index = List.range rows.length ∧
      ∀ p < seq_len, ∃! i, i < rows.length ∧ i * bin_size.toNat ≤ p ∧
        p < min ((i + 1) * bin_size.toNat) seq_len := by
  have hbn : 0 < bin_size.toNat := by omega
  refine ⟨_, segment_counts_eq seq_len positions0 bin_size hb hpos, ?_, ?_, ?_⟩
  · rw [List.length_map, List.length_range]
  · rw [List.map_map, List.length_map, List.length_range]
    have hcomp : (BinRow.bin_index ∘ fun i =>
        BinRow.mk i ((positions0.map (fun p => p / bin_size.toNat)).count i)) =
        fun i => i := rfl
    rw [hcomp, List.map_id']
  · rw [List.length_map, List.length_range]
    intro p hp
    refine ⟨p / bin_size.toNat, ⟨div_lt_ceil hbn hp, Nat.div_mul_le_self p _, ?_⟩, ?_⟩
    · refine lt_min ?_ hp
      have h1 : p / bin_size.toNat < p / bin_size.toNat + 1 := Nat.lt_succ_self _
      exact (Nat.div_lt_iff_lt_mul hbn).1 h1
    · rintro y ⟨_, hy1, hy2⟩
      have hy3 : p < (y + 1) * bin_size.toNat :=
        Nat.lt_of_lt_of_le hy2 (Nat.min_le_left _ _)
      have h4 : y ≤ p / bin_size.toNat := (Nat.le_div_iff_mul_le hbn).2 hy1
      have h5 : p / bin_size.toNat < y + 1 := (Nat.div_lt_iff_lt_mul hbn).2 hy3
      omega

/-- Witness for C3 at the spec's boundary scenario: `seq_len = 10`,
`bin_size = 4` (3 bins, last one short). -/
theorem segment_counts_dense_partition_witness :
    ∃ rows, segment_counts 10 [0, 3, 9] 4 = .ok rows ∧
      rows.length = (10 + (4 : Int).toNat - 1) / (4 : Int).toNat ∧
      rows.map BinRow.bin_index = List.range rows.length ∧
      ∀ p < 10, ∃! i, i < rows.length ∧ i * (4 : Int).toNat ≤ p ∧
        p < min ((i + 1) * (4 : Int).toNat) 10 :=
  segment_counts_dense_partition 10 [0, 3, 9] 4 (by decide) (by decide)
    (by decide)

/-! ## C9: `sequence_length = 0` is not rejected -/

/-- C9: `segment_counts` does not enforce the spec's precondition
`sequence_length ≥ 1`: with `sequence_length = 0`, an empty hit list and any
positive `bin_size` it returns an empty bin table (zero bins) and raises no
error. -/
theorem segment_counts_zero_length (bin_size : Int) (hb : 0 < bin_size) :
    segment_counts 0 [] bin_size = .ok [] := by
  have h := segment_counts_eq 0 [] bin_size hb (by simp)
  have hn : (0 + bin_size.toNat - 1) / bin_size.toNat = 0 :=
    Nat.div_eq_of_lt (by omega)
  rw [h, hn]
  rfl

/-- Witness for C9 at `bin_size = 100`. -/
theorem segment_counts_zero_length_witness : segment_counts 0 [] 100 = .ok [] :=
  segment_counts_zero_length 100 (by decide)

/-! ## C8: parameter validation -/

/-- C8: `segment_counts` fails with the bin-size `InvalidParameterError`
(`"Bin size musi być > 0."`) exactly when `bin_size ≤ 0`, and
`find_motif_positions` fails with the empty-motif `InvalidParameterError`
(`"Motyw nie może być pusty."`) exactly when the motif is empty after
normalization; for a positive `bin_size` (with hits inside the sequence, as
the pipeline produces them) and a non-empty valid motif, the checks pass and
both operations return normally. -/
theorem parameter_validation (seq_len : Nat) (positions0 : List Nat)
    (bin_size : Int) (seq motif : List Char) :
    (segment_counts seq_len positions0 bin_size = .error .invalidBinSize ↔
      bin_size ≤ 0) ∧
    (find_motif_positions seq motif = .error .emptyMotif ↔
      normMotif motif = []) ∧
    (0 < bin_size → (∀ p ∈ positions0, p < seq_len) →
      ∃ rows, segment_counts seq_len positions0 bin_size = .ok rows) ∧
    ((∀ c ∈ normMotif motif, c ∈ VALID_DNA) → normMotif motif ≠ [] →
      ∃ hits, find_motif_positions seq motif = .ok hits) := by
  refine ⟨⟨?_, ?_⟩, ⟨?_, ?_⟩, ?_, ?_⟩
  · intro h
    by_contra hb
    simp only [segment_counts, if_neg hb] at h
    split_ifs at h <;> simp_all
  · intro h
    simp [segment_counts, if_pos h]
  · intro h
    by_contra hm
    simp only [find_motif_positions, if_neg hm] at h
    split_ifs at h <;> simp_all
  · intro h
    simp [find_motif_positions, if_pos h]
  · intro hb hpos
    exact ⟨_, segment_counts_eq seq_len positions0 bin_size hb hpos⟩
  · intro hval hne
    have hfil : (normMotif motif).filter (fun c => decide (c ∉ VALID_DNA)) = [] :=
      List.filter_eq_nil_iff.2 fun c hc => by simp [hval c hc]
    refine ⟨(List.range (seq.length + 1)).filter (matchAt seq (normMotif motif)),
      ?_⟩
    simp only [find_motif_positions, if_neg hne, hfil]
    simp

/-- Witness for C8: rejected `bin_size = 0` and whitespace-only motif;
accepted `bin_size = 4` and motif `"C"`. -/
theorem parameter_validation_witness :
    segment_counts 10 [0, 3] 0 = .error .invalidBinSize ∧
    find_motif_positions ['A', 'C'] [' '] = .error .emptyMotif ∧
    (∃ rows, segment_counts 10 [0, 3] 4 = .ok rows) ∧
    (∃ hits, find_motif_positions ['A', 'C'] ['C'] = .ok hits) :=
  ⟨(parameter_validation 10 [0, 3] 0 ['A', 'C'] [' ']).1.mpr (by decide),
   (parameter_validation 10 [0, 3] 0 ['A', 'C'] [' ']).2.1.mpr (by decide),
   (parameter_validation 10 [0, 3] 4 ['A', 'C'] ['C']).2.2.1 (by decide)
     (by decide),
   (parameter_validation 10 [0, 3] 4 ['A', 'C'] ['C']).2.2.2 (by decide)
     (by decide)⟩

/-! ## C4: shape of the exported bin rows -/

/-- C4 counterexample: the exported bins table has no `start` or `end`
column at all — its columns are exactly `bin_index` and `count`
(`src/main.py`, lines 75–78) — so bins are not reported with 1-based
inclusive `start`/`end` positions as the claim states. -/
theorem bins_columns_no_start_end :
    "start" ∉ bins_columns ∧ "end" ∉ bins_columns ∧
    bins_columns = ["bin_index", "count"] :=
  ⟨by decide, by decide, rfl⟩

theorem count_map_eq (f : Nat → Nat) (a : Nat) :
    ∀ l : List Nat,
      (l.map f).count a = (l.filter (fun x => decide (f x = a))).length := by
  intro l
  induction l with
  | nil => rfl
  | cons x xs ih =>
    simp only [List.map_cons, List.count_cons, List.filter_cons]
    by_cases h : f x = a
    · simp [h, ih]
    · simp [h, fun he : a = f x => h he.symm, ih]

/-- C4 amended: each bin produced by `segment_counts` is reported with a
0-based `bin_index` and a `count` only (exported columns `bin_index`,
`count`); row `i` counts exactly the hits `p` with `p / bin_size = i`
(the hits of `[i*bin_size, min((i+1)*bin_size, seq_len))`); no 1-based
`start`/`end` columns are produced. -/
theorem segment_counts_row_shape (seq_len : Nat) (positions0 : List Nat)
    (bin_size : Int) (hb : 0 < bin_size)
    (hpos : ∀ p ∈ positions0, p < seq_len) :
    ∃ rows, segment_counts seq_len positions0 bin_size = .ok rows ∧
      ∀ j (hj : j < rows.length), (rows.get ⟨j, hj⟩).bin_index = j ∧
        (rows.get ⟨j, hj⟩).count =
          (positions0.filter (fun p => decide (p / bin_size.toNat = j))).length := by
  refine ⟨_, segment_counts_eq seq_len positions0 bin_size hb hpos, ?_⟩
  intro j hj
  rw [List.length_map, List.length_range] at hj
  constructor
  · simp [List.get_eq_getElem, List.getElem_map, List.getElem_range]
  · simp only [List.get_eq_getElem, List.getElem_map, List.getElem_range]
    exact count_map_eq _ j positions0

/-- Witness for C4 (amended) at `seq_len = 10`, hits `[0, 3, 9]`,
`bin_size = 4`. -/
theorem segment_counts_row_shape_witness :
    ∃ rows, segment_counts 10 [0, 3, 9] 4 = .ok rows ∧
      ∀ j (hj : j < rows.length), (rows.get ⟨j, hj⟩).bin_index = j ∧
        (rows.get ⟨j, hj⟩).count =
          (([0, 3, 9] : List Nat).filter
            (fun p => decide (p / (4 : Int).toNat = j))).length :=
  segment_counts_row_shape 10 [0, 3, 9] 4 (by decide) (by decide)

/-! ## Further lemmas about `pyUpper`, `pyStrip` and `splitLines` -/

theorem pyUpper_idem (c : Char) : pyUpper (pyUpper c) = pyUpper c := by
  unfold pyUpper
  by_cases h : c ∈ lowercaseLetters
  · fin_cases h <;> decide
  · simp only [if_neg h]

theorem pyUpper_eq_space_iff (c : Char) : pyUpper c = ' ' ↔ c = ' ' := by
  unfold pyUpper
  by_cases h : c ∈ lowercaseLetters
  · fin_cases h <;> decide
  · simp only [if_neg h]

theorem pyUpper_pySpace {c : Char} (h : pySpace c = true) : pyUpper c = c := by
  have hc : c ∈ pySpaceChars := by simpa [pySpace] using h
  fin_cases hc <;> decide

theorem pySpace_of_isLineBreak {c : Char} (h : isLineBreak c = true) :
    pySpace c = true := by
  have hc : c ∈ lineBreakChars := by simpa [isLineBreak] using h
  fin_cases hc <;> decide

theorem dropWhile_head_false {p : Char → Bool} :
    ∀ {l : List Char} {c : Char} {rest : List Char},
      l.dropWhile p = c :: rest → p c = false := by
  intro l
  induction l with
  | nil => intro c rest h; simp [List.dropWhile] at h
  | cons x xs ih =>
    intro c rest h
    rw [List.dropWhile_cons] at h
    by_cases hx : p x
    · rw [if_pos hx] at h
      exact ih h
    · rw [if_neg hx] at h
      injection h with h1 _
      subst h1
      exact Bool.eq_false_iff.mpr hx

theorem mem_of_mem_dropWhile {p : Char → Bool} {l : List Char} {c : Char}
    (h : c ∈ l.dropWhile p) : c ∈ l := by
  conv_lhs => rw [← List.takeWhile_append_dropWhile (p := p) (l := l)]
  exact List.mem_append_right _ h

theorem mem_of_mem_takeWhile {p : Char → Bool} {l : List Char} {c : Char}
    (h : c ∈ l.takeWhile p) : c ∈ l := by
  conv_lhs => rw [← List.takeWhile_append_dropWhile (p := p) (l := l)]
  exact List.mem_append_left _ h

theorem mem_of_mem_pyStrip {l : List Char} {c : Char}
    (h : c ∈ pyStrip l) : c ∈ l := by
  unfold pyStrip at h
  rw [List.mem_reverse] at h
  exact mem_of_mem_dropWhile (List.mem_reverse.1 (mem_of_mem_dropWhile h))

theorem mem_dropWhile_of_mem {p : Char → Bool} {c : Char} :
    ∀ {l : List Char}, c ∈ l → p c = false → c ∈ l.dropWhile p := by
  intro l
  induction l with
  | nil => intro h _; simp at h
  | cons x xs ih =>
    intro h hc
    rw [List.dropWhile_cons]
    by_cases hx : p x
    · rw [if_pos hx]
      rcases List.mem_cons.1 h with rfl | h2
      · rw [hc] at hx; exact absurd hx (by simp)
      · exact ih h2 hc
    · rw [if_neg hx]
      exact h

theorem mem_pyStrip_of_mem {l : List Char} {c : Char} (h : c ∈ l)
    (hc : pySpace c = false) : c ∈ pyStrip l := by
  unfold pyStrip
  rw [List.mem_reverse]
  exact mem_dropWhile_of_mem (List.mem_reverse.2 (mem_dropWhile_of_mem h hc)) hc

/-- Right-trimming decomposes a list into the trimmed part followed by its
trailing whitespace. -/
theorem trimRight_decomp (u : List Char) :
    u = (u.reverse.dropWhile pySpace).reverse ++
      (u.reverse.takeWhile pySpace).reverse := by
  rw [← List.reverse_append, List.takeWhile_append_dropWhile,
    List.reverse_reverse]

theorem pyStrip_head_false : ∀ {l : List Char} {c : Char} {rest : List Char},
    pyStrip l = c :: rest → pySpace c = false := by
  intro l c rest h
  unfold pyStrip at h
  have hu := trimRight_decomp (l.dropWhile pySpace)
  rw [h, List.cons_append] at hu
  exact dropWhile_head_false hu

theorem pyStrip_idem (l : List Char) : pyStrip (pyStrip l) = pyStrip l := by
  have ha : (pyStrip l).dropWhile pySpace = pyStrip l := by
    cases hps : pyStrip l with
    | nil => rfl
    | cons d rest =>
      rw [List.dropWhile_cons, pyStrip_head_false hps]
      simp
  have hb : (pyStrip l).reverse.dropWhile pySpace = (pyStrip l).reverse := by
    have hrev : (pyStrip l).reverse =
        (l.dropWhile pySpace).reverse.dropWhile pySpace := by
      unfold pyStrip
      rw [List.reverse_reverse]
    rw [hrev]
    cases hx : (l.dropWhile pySpace).reverse.dropWhile pySpace with
    | nil => rfl
    | cons d rest =>
      rw [List.dropWhile_cons, dropWhile_head_false hx]
      simp
  show (((pyStrip l).dropWhile pySpace).reverse.dropWhile pySpace).reverse =
    pyStrip l
  rw [ha, hb, List.reverse_reverse]

theorem pyStrip_eq_nil {l : List Char} (h : ∀ c ∈ l, pySpace c = true) :
    pyStrip l = [] := by
  unfold pyStrip
  rw [List.dropWhile_eq_nil_iff.2 h]
  rfl

/-- Filtering with a predicate that discards all whitespace ignores
stripping. -/
theorem filter_pyStrip {pr : Char → Bool} {l : List Char}
    (h : ∀ c ∈ l, pySpace c = true → pr c = false) :
    (pyStrip l).filter pr = l.filter pr := by
  have h1 : l = l.takeWhile pySpace ++ l.dropWhile pySpace :=
    (List.takeWhile_append_dropWhile (p := pySpace) (l := l)).symm
  have h2 : l.dropWhile pySpace = pyStrip l ++
      ((l.dropWhile pySpace).reverse.takeWhile pySpace).reverse :=
    trimRight_decomp (l.dropWhile pySpace)
  have hmemdw : ∀ c ∈ l.dropWhile pySpace, c ∈ l := fun c hc =>
    mem_of_mem_dropWhile hc
  have htw : (l.takeWhile pySpace).filter pr = [] :=
    List.filter_eq_nil_iff.2 fun c hc => by
      have hsp := List.mem_takeWhile_imp hc
      have hcl : c ∈ l := by
        rw [h1]; exact List.mem_append_left _ hc
      simp [h c hcl hsp]
  have hs : (((l.dropWhile pySpace).reverse.takeWhile pySpace).reverse).filter
      pr = [] :=
    List.filter_eq_nil_iff.2 fun c hc => by
      rw [List.mem_reverse] at hc
      have hsp := List.mem_takeWhile_imp hc
      have hcl : c ∈ l :=
        hmemdw c (List.mem_reverse.1 (mem_of_mem_takeWhile hc))
      simp [h c hcl hsp]
  conv_rhs => rw [h1, h2]
  rw [List.filter_append, List.filter_append, htw, hs]
  simp

theorem splitLines_ne_nil : ∀ t : List Char, splitLines t ≠ [] := by
  intro t
  induction t with
  | nil => simp [splitLines]
  | cons c cs ih =>
    simp only [splitLines]
    by_cases h : isLineBreak c = true
    · simp [h]
    · rw [if_neg h]
      cases hs : splitLines cs <;> simp

theorem mem_splitLines : ∀ {t l : List Char}, l ∈ splitLines t →
    ∀ c ∈ l, c ∈ t ∧ isLineBreak c = false := by
  intro t
  induction t with
  | nil =>
    intro l hl c hc
    simp only [splitLines, List.mem_singleton] at hl
    subst hl
    simp at hc
  | cons x xs ih =>
    intro l hl c hc
    simp only [splitLines] at hl
    by_cases hx : isLineBreak x = true
    · rw [if_pos hx] at hl
      rcases List.mem_cons.1 hl with rfl | hl2
      · simp at hc
      · have hr := ih hl2 c hc
        exact ⟨List.mem_cons_of_mem _ hr.1, hr.2⟩
    · rw [if_neg hx] at hl
      cases hs : splitLines xs with
      | nil => exact absurd hs (splitLines_ne_nil xs)
      | cons l0 ls =>
        rw [hs] at hl
        rcases List.mem_cons.1 hl with rfl | hl2
        · rcases List.mem_cons.1 hc with rfl | hc2
          · exact ⟨List.mem_cons_self _ _, Bool.eq_false_iff.mpr hx⟩
          · have hl0 : l0 ∈ splitLines xs := hs ▸ List.mem_cons_self l0 ls
            have hr := ih hl0 c hc2
            exact ⟨List.mem_cons_of_mem _ hr.1, hr.2⟩
        · have hmem : l ∈ splitLines xs := hs ▸ List.mem_cons_of_mem _ hl2
          have hr := ih hmem c hc
          exact ⟨List.mem_cons_of_mem _ hr.1, hr.2⟩

theorem flatten_splitLines : ∀ t : List Char,
    (splitLines t).flatten = t.filter (fun c => !isLineBreak c) := by
  intro t
  induction t with
  | nil => rfl
  | cons c cs ih =>
    simp only [splitLines]
    by_cases hc : isLineBreak c = true
    · rw [if_pos hc]
      simp [ih, List.filter_cons, hc]
    · have hcf : isLineBreak c = false := Bool.eq_false_iff.mpr hc
      rw [if_neg hc]
      cases hs : splitLines cs with
      | nil => exact absurd hs (splitLines_ne_nil cs)
      | cons l0 ls =>
        have hfl : l0 ++ ls.flatten = cs.filter (fun c => !isLineBreak c) := by
          have h0 := ih
          rw [hs] at h0
          simpa using h0
        simp only [List.flatten_cons, List.cons_append, hfl, List.filter_cons]
        simp [hcf]

theorem flatten_filter_ne_nil : ∀ ls : List (List Char),
    (ls.filter (fun l => decide (l ≠ []))).flatten = ls.flatten := by
  intro ls
  induction ls with
  | nil => rfl
  | cons l ls ih =>
    rw [List.filter_cons]
    by_cases h : l = []
    · subst h
      rw [if_neg (by decide), ih, List.flatten_cons, List.nil_append]
    · rw [if_pos (by simp [h]), List.flatten_cons, List.flatten_cons, ih]

theorem filter_flatten (pr : Char → Bool) : ∀ ls : List (List Char),
    ls.flatten.filter pr = (ls.map (fun l => l.filter pr)).flatten := by
  intro ls
  induction ls with
  | nil => rfl
  | cons l ls ih => simp [List.filter_append, ih]

/-! ## Lemmas about `sortChars` and `badChars` -/

theorem insertSorted_perm (c : Char) : ∀ l : List Char,
    List.Perm (insertSorted c l) (c :: l) := by
  intro l
  induction l with
  | nil => exact List.Perm.refl _
  | cons d ds ih =>
    unfold insertSorted
    by_cases h : c ≤ d
    · rw [if_pos h]
    · rw [if_neg h]
      exact List.Perm.trans (List.Perm.cons d ih) (List.Perm.swap c d ds)

theorem sortChars_perm : ∀ l : List Char, List.Perm (sortChars l) l := by
  intro l
  induction l with
  | nil => exact List.Perm.refl _
  | cons c cs ih =>
    show List.Perm (insertSorted c (sortChars cs)) (c :: cs)
    exact List.Perm.trans (insertSorted_perm c _) (List.Perm.cons c ih)

theorem mem_sortChars {a : Char} {l : List Char} : a ∈ sortChars l ↔ a ∈ l :=
  (sortChars_perm l).mem_iff

theorem insertSorted_pairwise {c : Char} : ∀ {l : List Char},
    l.Pairwise (· ≤ ·) → (insertSorted c l).Pairwise (· ≤ ·) := by
  intro l
  induction l with
  | nil => intro _; simp [insertSorted]
  | cons d ds ih =>
    intro h
    unfold insertSorted
    by_cases hcd : c ≤ d
    · rw [if_pos hcd]
      refine List.Pairwise.cons ?_ h
      intro b hb
      rcases List.mem_cons.1 hb with rfl | hb2
      · exact hcd
      · exact le_trans hcd (List.rel_of_pairwise_cons h hb2)
    · rw [if_neg hcd]
      have hd : ∀ b ∈ insertSorted c ds, d ≤ b := by
        intro b hb
        rcases List.mem_cons.1 ((insertSorted_perm c ds).subset hb) with rfl | hb2
        · exact le_of_not_le hcd
        · exact List.rel_of_pairwise_cons h hb2
      exact List.Pairwise.cons hd (ih (List.Pairwise.of_cons h))

theorem sortChars_pairwise : ∀ l : List Char,
    (sortChars l).Pairwise (· ≤ ·) := by
  intro l
  induction l with
  | nil => simp [sortChars]
  | cons c cs ih => exact insertSorted_pairwise ih

/-- `badChars` is strictly sorted: ascending and duplicate-free. -/
theorem badChars_sorted (s : List Char) : (badChars s).Pairwise (· < ·) := by
  have h1 : (badChars s).Pairwise (· ≤ ·) := sortChars_pairwise _
  have h2 : (badChars s).Nodup :=
    ((sortChars_perm _).nodup_iff).2 (List.nodup_dedup _)
  exact (h1.and h2).imp fun hab => lt_of_le_of_ne hab.1 hab.2

/-- `badChars s` holds exactly the characters of `s` outside the DNA
alphabet. -/
theorem mem_badChars {a : Char} {s : List Char} :
    a ∈ badChars s ↔ a ∈ s ∧ a ∉ VALID_DNA := by
  unfold badChars
  rw [mem_sortChars, List.mem_dedup, List.mem_filter]
  simp

/-! ## C5: empty-input handling in the loader -/

/-- C7 counterexample: the motifs `"X"` and `"B"` have different offending
character sets, yet `find_motif_positions` raises the very same error value
(the fixed message `"Motyw może zawierać tylko A,C,G,T,N."`): the motif
alphabet error does not carry the offending character set. -/
theorem motif_alphabet_error_carries_nothing :
    find_motif_positions ['A', 'C', 'G', 'T'] ['X'] =
      Except.error PyError.invalidMotifChars ∧
    find_motif_positions ['A', 'C', 'G', 'T'] ['B'] =
      Except.error PyError.invalidMotifChars :=
  ⟨by decide, by decide⟩

/-- C7 amended: a sequence with characters outside {A,C,G,T,N} makes the
loader fail with `InvalidAlphabetError` carrying the sorted distinct set of
offending characters; a normalized motif with characters outside the
alphabet makes `find_motif_positions` fail with `InvalidAlphabetError`, but
with a fixed message that carries no characters; when all characters are in
the alphabet, no alphabet error is raised. -/
theorem alphabet_validation (raw seq motif : List Char) :
    (pyStrip raw ≠ [] → (∃ c ∈ candidateSeq raw, c ∉ VALID_DNA) →
      read_sequence_file raw =
        .error (.invalidSeqChars (badChars (candidateSeq raw))) ∧
      (badChars (candidateSeq raw)).Pairwise (· < ·) ∧
      (∀ a, a ∈ badChars (candidateSeq raw) ↔
        a ∈ candidateSeq raw ∧ a ∉ VALID_DNA)) ∧
    (normMotif motif ≠ [] → (∃ c ∈ normMotif motif, c ∉ VALID_DNA) →
      find_motif_positions seq motif = .error .invalidMotifChars) ∧
    (pyStrip raw ≠ [] → (∀ c ∈ candidateSeq raw, c ∈ VALID_DNA) →
      read_sequence_file raw = .ok (headerOf raw, candidateSeq raw)) ∧
    (normMotif motif ≠ [] → (∀ c ∈ normMotif motif, c ∈ VALID_DNA) →
      ∃ hits, find_motif_positions seq motif = .ok hits) := by
  refine ⟨?_, ?_, ?_, ?_⟩
  · rintro htext ⟨c, hc, hcv⟩
    have hbad : badChars (candidateSeq raw) ≠ [] := fun hnil => by
      have hm := mem_badChars.2 ⟨hc, hcv⟩
      rw [hnil] at hm
      simp at hm
    refine ⟨?_, badChars_sorted _, fun a => mem_badChars⟩
    simp only [read_sequence_file, if_neg htext]
    rw [if_pos hbad]
  · rintro hne ⟨c, hc, hcv⟩
    have hfil : (normMotif motif).filter (fun c => decide (c ∉ VALID_DNA)) ≠
        [] := by
      intro hnil
      have hm : c ∈ (normMotif motif).filter (fun c => decide (c ∉ VALID_DNA)) :=
        List.mem_filter.2 ⟨hc, by simp [hcv]⟩
      rw [hnil] at hm
      simp at hm
    simp only [find_motif_positions, if_neg hne]
    rw [if_pos hfil]
  · intro htext hval
    have hbad : badChars (candidateSeq raw) = [] := by
      rw [List.eq_nil_iff_forall_not_mem]
      intro a ha
      have hm := mem_badChars.1 ha
      exact hm.2 (hval a hm.1)
    simp only [read_sequence_file, if_neg htext, hbad]
    simp
  · intro hne hval
    have hfil : (normMotif motif).filter (fun c => decide (c ∉ VALID_DNA)) =
        [] :=
      List.filter_eq_nil_iff.2 fun c hc => by simp [hval c hc]
    refine ⟨(List.range (seq.length + 1)).filter (matchAt seq (normMotif motif)),
      ?_⟩
    simp only [find_motif_positions, if_neg hne, hfil]
    simp

/-- Witness for C7 (amended): sequence `"Ax!"` (offending set `['!', 'X']`
after upper-casing), invalid motif `"x!"`, valid sequence `"ac"` and valid
motif `"a"`. -/
theorem alphabet_validation_witness :
    read_sequence_file ['A', 'x', '!'] =
      .error (.invalidSeqChars (badChars (candidateSeq ['A', 'x', '!']))) ∧
    find_motif_positions ['A'] ['x', '!'] = .error .invalidMotifChars ∧
    read_sequence_file ['a', 'c'] =
      .ok (headerOf ['a', 'c'], candidateSeq ['a', 'c']) ∧
    ∃ hits, find_motif_positions ['A', 'C'] ['a'] = .ok hits :=
  ⟨((alphabet_validation ['A', 'x', '!'] ['A'] ['x', '!']).1 (by decide)
      (by decide)).1,
   (alphabet_validation ['A', 'x', '!'] ['A'] ['x', '!']).2.1 (by decide)
      (by decide),
   (alphabet_validation ['a', 'c'] ['A', 'C'] ['a']).2.2.1 (by decide)
      (by decide),
   (alphabet_validation ['a', 'c'] ['A', 'C'] ['a']).2.2.2 (by decide)
      (by decide)⟩

/-! ## C10: motif normalization -/

/-- C10: `find_motif_positions` normalizes the motif itself (upper-casing
and stripping surrounding whitespace): any motif gives exactly the same
result as its normalized form, and a whitespace-only motif is rejected as an
empty motif. -/
theorem find_motif_normalizes (seq motif : List Char) :
    find_motif_positions seq motif =
      find_motif_positions seq (normMotif motif) ∧
    ((∀ c ∈ motif, pySpace c = true) →
      find_motif_positions seq motif = .error .emptyMotif) := by
  constructor
  · have hfix : (pyStrip (motif.map pyUpper)).map pyUpper =
        pyStrip (motif.map pyUpper) := by
      rw [List.map_congr_left fun c hc => ?_, List.map_id']
      rcases List.mem_map.1 (mem_of_mem_pyStrip hc) with ⟨d, _, rfl⟩
      exact pyUpper_idem d
    have hidem : normMotif (normMotif motif) = normMotif motif := by
      unfold normMotif
      rw [hfix, pyStrip_idem]
    simp only [find_motif_positions, hidem]
  · intro hws
    have hnil : normMotif motif = [] := by
      unfold normMotif
      rw [List.map_congr_left fun c hc => pyUpper_pySpace (hws c hc),
        List.map_id']
      exact pyStrip_eq_nil hws
    simp [find_motif_positions, hnil]

/-- Witness for C10: the padded lowercase motif `" ac\t"` behaves exactly
like its normalized form, and the whitespace-only motif `" \t"` is rejected
as empty. -/
theorem find_motif_normalizes_witness :
    find_motif_positions ['A', 'C'] [' ', 'a', 'c', '\t'] =
      find_motif_positions ['A', 'C'] (normMotif [' ', 'a', 'c', '\t']) ∧
    find_motif_positions ['A', 'C'] [' ', '\t'] = .error .emptyMotif :=
  ⟨(find_motif_normalizes ['A', 'C'] [' ', 'a', 'c', '\t']).1,
   (find_motif_normalizes ['A', 'C'] [' ', '\t']).2 (by decide)⟩

/-! ## C6: whitespace stripping and upper-casing in the loader -/

/-- C6 counterexample: the input `"AC\tGT"` has all its non-whitespace
characters in {A,C,G,T,N}, yet it is rejected: a tab inside a line is not
stripped (only line-edge whitespace and space characters are removed), so
the tab reaches alphabet validation and raises `InvalidAlphabetError`. -/
theorem internal_tab_not_stripped :
    read_sequence_file ['A', 'C', '\t', 'G', 'T'] =
      .error (.invalidSeqChars ['\t']) := by decide

theorem pySpace_false_of_upper_valid {c : Char}
    (h : pyUpper c ∈ VALID_DNA) : pySpace c = false := by
  by_cases hs : pySpace c = true
  · rw [pyUpper_pySpace hs] at h
    exact absurd hs (by simp [pySpace_valid h])
  · exact Bool.eq_false_iff.mpr hs

/-- C6 amended: the loader strips whitespace at the ends of the input and of
each line, removes space characters anywhere, and upper-cases; an input made
of ASCII letters that upper-case into {A,C,G,T,N}, spaces and newlines is
accepted and yields the upper-cased concatenation with spaces and newlines
removed.  (Other internal whitespace, such as a tab inside a line, is not
removed and instead triggers `InvalidAlphabetError`.) -/
theorem load_normalization (raw : List Char)
    (hall : ∀ c ∈ raw, pyUpper c ∈ VALID_DNA ∨ c = ' ' ∨ c = '\n')
    (hex : ∃ c ∈ raw, pyUpper c ∈ VALID_DNA) :
    read_sequence_file raw =
      .ok ([], (raw.filter
        (fun c => decide (c ≠ ' ' ∧ c ≠ '\n'))).map pyUpper) := by
  have hws : ∀ c ∈ raw, pySpace c = true → c = ' ' ∨ c = '\n' :=
    fun c hc hsp => (hall c hc).resolve_left fun hv => by
      simp [pySpace_false_of_upper_valid hv] at hsp
  have htext : pyStrip raw ≠ [] := by
    obtain ⟨d, hd, hdv⟩ := hex
    have hmem : d ∈ pyStrip raw :=
      mem_pyStrip_of_mem hd (pySpace_false_of_upper_valid hdv)
    intro hnil
    rw [hnil] at hmem
    simp at hmem
  have hws_t : ∀ c ∈ pyStrip raw, pySpace c = true → c = ' ' ∨ c = '\n' :=
    fun c hc => hws c (mem_of_mem_pyStrip hc)
  have hhd : ¬ (splitLines (pyStrip raw)).headI.head? = some '>' := by
    intro hhd
    cases hsl : splitLines (pyStrip raw) with
    | nil => exact splitLines_ne_nil _ hsl
    | cons l0 ls =>
      rw [hsl] at hhd
      simp only [List.headI] at hhd
      have h0 : l0 ∈ splitLines (pyStrip raw) := hsl ▸ List.mem_cons_self _ _
      have hin : ('>' : Char) ∈ l0 := List.mem_of_mem_head? hhd
      have hmem := mem_splitLines h0 '>' hin
      have hraw : ('>' : Char) ∈ raw := mem_of_mem_pyStrip hmem.1
      rcases hall '>' hraw with hv | h1 | h2
      · exact absurd hv (by decide)
      · exact absurd h1 (by decide)
      · exact absurd h2 (by decide)
  have hsl : seqLines raw = stripLines (splitLines (pyStrip raw)) := by
    simp only [seqLines]
    rw [if_neg hhd]
  have hheader : headerOf raw = [] := by
    simp only [headerOf]
    rw [if_neg hhd]
  have hchain : candidateSeq raw =
      (raw.filter (fun c => decide (c ≠ ' ' ∧ c ≠ '\n'))).map pyUpper := by
    have hcomp : ((fun c => decide (c ≠ ' ')) ∘ pyUpper) =
        (fun c => decide (c ≠ ' ')) := by
      funext c
      simp only [Function.comp]
      exact decide_eq_decide.2 (not_congr (pyUpper_eq_space_iff c))
    have hlineeq : (splitLines (pyStrip raw)).map
          (fun l => (pyStrip l).filter (fun c => decide (c ≠ ' '))) =
        (splitLines (pyStrip raw)).map
          (fun l => l.filter (fun c => decide (c ≠ ' '))) := by
      refine List.map_congr_left fun l hl => ?_
      refine filter_pyStrip fun c hc hsp => ?_
      have hmem := mem_splitLines hl c hc
      rcases hws_t c hmem.1 hsp with rfl | rfl
      · rfl
      · exact absurd hmem.2 (by decide)
    calc candidateSeq raw
        = (((stripLines (splitLines (pyStrip raw))).flatten).map
            pyUpper).filter (fun c => decide (c ≠ ' ')) := by
          simp only [candidateSeq, hsl]
      _ = (((stripLines (splitLines (pyStrip raw))).flatten).filter
            (fun c => decide (c ≠ ' '))).map pyUpper := by
          rw [List.filter_map, hcomp]
      _ = ((((splitLines (pyStrip raw)).map pyStrip).flatten).filter
            (fun c => decide (c ≠ ' '))).map pyUpper := by
          rw [stripLines, flatten_filter_ne_nil]
      _ = (((splitLines (pyStrip raw)).map
            (fun l => (pyStrip l).filter (fun c => decide (c ≠ ' ')))).flatten).map
            pyUpper := by
          rw [filter_flatten, List.map_map]
          rfl
      _ = (((splitLines (pyStrip raw)).map
            (fun l => l.filter (fun c => decide (c ≠ ' ')))).flatten).map
            pyUpper := by
          rw [hlineeq]
      _ = ((((splitLines (pyStrip raw)).flatten).filter
            (fun c => decide (c ≠ ' ')))).map pyUpper := by
          rw [filter_flatten]
      _ = (((pyStrip raw).filter (fun c => !isLineBreak c)).filter
            (fun c => decide (c ≠ ' '))).map pyUpper := by
          rw [flatten_splitLines]
      _ = ((pyStrip raw).filter
            (fun c => decide (c ≠ ' ' ∧ c ≠ '\n'))).map pyUpper := by
          rw [List.filter_filter]
          congr 1
          refine List.filter_congr fun c hc => ?_
          rcases hall c (mem_of_mem_pyStrip hc) with hv | rfl | rfl
          · have hsp := pySpace_false_of_upper_valid hv
            have hlb : isLineBreak c = false := by
              by_cases hl : isLineBreak c = true
              · rw [pySpace_of_isLineBreak hl] at hsp
                exact absurd hsp (by simp)
              · exact Bool.eq_false_iff.mpr hl
            have hns : c ≠ ' ' := fun he => absurd (he ▸ hsp) (by decide)
            have hnn : c ≠ '\n' := fun he => absurd (he ▸ hsp) (by decide)
            simp [hlb, hns, hnn]
          · decide
          · decide
      _ = (raw.filter (fun c => decide (c ≠ ' ' ∧ c ≠ '\n'))).map pyUpper := by
          congr 1
          refine filter_pyStrip fun c hc hsp => ?_
          rcases hws c hc hsp with rfl | rfl <;> rfl
  have hbad : badChars (candidateSeq raw) = [] := by
    rw [List.eq_nil_iff_forall_not_mem]
    intro a ha
    have hm := mem_badChars.1 ha
    rcases hm with ⟨hmem, hnval⟩
    rw [hchain] at hmem
    rcases List.mem_map.1 hmem with ⟨c, hcf, rfl⟩
    rcases List.mem_filter.1 hcf with ⟨hcl, hcp⟩
    rw [decide_eq_true_iff] at hcp
    rcases hall c hcl with hv | rfl | rfl
    · exact hnval hv
    · exact hcp.1 rfl
    · exact hcp.2 rfl
  simp only [read_sequence_file, if_neg htext, hbad]
  rw [if_neg (fun h => h rfl), hheader, hchain]

/-- Witness for C6 (amended): `"ac g\nTt"` loads as `"ACGTT"`. -/
theorem load_normalization_witness :
    read_sequence_file ['a', 'c', ' ', 'g', '\n', 'T', 't'] =
      .ok ([], ((['a', 'c', ' ', 'g', '\n', 'T', 't'] : List Char).filter
        (fun c => decide (c ≠ ' ' ∧ c ≠ '\n'))).map pyUpper) :=
  load_normalization ['a', 'c', ' ', 'g', '\n', 'T', 't'] (by decide)
    (by decide)

end DnaMotif
